import Mathlib

/-!
Verification development for the `matchsorter` crate: a shallow embedding of
the ranking, key-extraction, sorting and pipeline code
(`src/ranking/mod.rs`, `src/key.rs`, `src/sort.rs`, `src/lib.rs`)
over `List Char` strings, with machine floats modelled as rationals plus an
explicit NaN value.  Calls into external Unicode libraries
(`char::to_lowercase`, NFD decomposition, combining-mark classification)
are abstracted as a parameter structure `Uni`; concrete instances model the
behaviour of those libraries on the characters used in examples.
-/

namespace Msort

/-- Model of an `f64` sub-score: an exact rational or NaN.  The crate only
produces sub-scores of the form `2.0` or `1.0 + 1.0/spread`, for which
rational arithmetic coincides with the float semantics used. -/
inductive F64 where
  | val : ℚ → F64
  | nan : F64
deriving DecidableEq

/-- Three-way comparison on naturals, mirroring `u8::partial_cmp` (which is
total; the `Option` wrapper is added at the `Ranking` level). -/
def ncmp (a b : Nat) : Ordering :=
  if a < b then .lt else if a = b then .eq else .gt

/-- Three-way comparison on rationals, mirroring `f64::partial_cmp` on
non-NaN values. -/
def qcmp (a b : ℚ) : Ordering :=
  if a < b then .lt else if a = b then .eq else .gt

/-- Model of `f64::partial_cmp`: NaN compares as `none`. -/
def F64.fcmp : F64 → F64 → Option Ordering
  | .val a, .val b => some (qcmp a b)
  | _, _ => none

/-- Model of `f64 == f64` (`PartialEq`): NaN is equal to nothing,
including itself. -/
def F64.feq : F64 → F64 → Bool
  | .val a, .val b => decide (a = b)
  | _, _ => false

/-- The 8-tier ranking enum from `src/ranking/mod.rs`. -/
inductive Ranking where
  | CaseSensitiveEqual
  | Equal
  | StartsWith
  | WordStartsWith
  | Contains
  | Acronym
  | Matches (score : F64)
  | NoMatch
deriving DecidableEq

/-- Model of `Ranking::tier_value`: the integer tier of each variant; `Matches` has
base tier 1. -/
def Ranking.tierValue : Ranking → Nat
  | .CaseSensitiveEqual => 7
  | .Equal => 6
  | .StartsWith => 5
  | .WordStartsWith => 4
  | .Contains => 3
  | .Acronym => 2
  | .Matches _ => 1
  | .NoMatch => 0

/-- The manual `PartialOrd for Ranking`: two `Matches` compare by sub-score
(`f64::partial_cmp`), every other pair by integer tier value. -/
def Ranking.rcmp : Ranking → Ranking → Option Ordering
  | .Matches a, .Matches b => F64.fcmp a b
  | a, b => some (ncmp a.tierValue b.tierValue)

/-- The manual `PartialEq for Ranking`: two `Matches` compare by `f64`
equality, every other pair by tier value. -/
def Ranking.req : Ranking → Ranking → Bool
  | .Matches a, .Matches b => F64.feq a b
  | a, b => decide (a.tierValue = b.tierValue)

/-- Rust `a < b` via `PartialOrd`: `partial_cmp = Some(Less)`. -/
def Ranking.rlt (a b : Ranking) : Bool :=
  match Ranking.rcmp a b with
  | some .lt => true
  | _ => false

/-- Rust `a > b` via `PartialOrd`: `partial_cmp = Some(Greater)`. -/
def Ranking.rgt (a b : Ranking) : Bool :=
  match Ranking.rcmp a b with
  | some .gt => true
  | _ => false

/-- Rust `a >= b` via `PartialOrd`: `partial_cmp ∈ {Some(Greater), Some(Equal)}`. -/
def Ranking.rge (a b : Ranking) : Bool :=
  match Ranking.rcmp a b with
  | some .gt => true
  | some .eq => true
  | _ => false

/-- Helper for `get_closeness_ranking`: the body of the JS-style
`findMatchingCharacter` realised by `candidate_chars.find` — scan the
remaining candidate characters (whose first element has absolute position
`pos`) for `q`, returning the absolute position found and the characters
after it. -/
def findMatchingChar (q : Char) : List Char → Nat → Option (Nat × List Char)
  | [], _ => none
  | c :: cs, pos => if c = q then some (pos, cs) else findMatchingChar q cs (pos + 1)

/-- The main loop of `get_closeness_ranking`: iterate over the query's
characters, greedily consuming the candidate, tracking the first and the
most recent match position exactly as the Rust loop does. -/
def closenessLoop (cand : List Char) (pos : Nat) :
    List Char → Option Nat → Nat → Ranking
  | [], first, last =>
      let f := first.getD 0
      let spread := last - f
      if spread = 0 then .Matches (.val 2)
      else .Matches (.val (1 + 1 / (spread : ℚ)))
  | q :: qs, first, last =>
      match findMatchingChar q cand pos with
      | none => .NoMatch
      | some (p, rest) =>
          let _ := last
          closenessLoop rest (p + 1) qs (some (first.getD p)) p

/-- Embeds `get_closeness_ranking` from `src/ranking/mod.rs`. -/
def getClosenessRanking (candidate query : List Char) : Ranking :=
  closenessLoop candidate 0 query none 0

/-- Embeds `is_acronym_delimiter`: only space and hyphen. -/
def isAcronymDelimiter (c : Char) : Bool :=
  c = ' ' || c = '-'

/-- The character-collecting loop inside `get_acronym`, tracking the
previous character. -/
def acronymGo (prev : Char) : List Char → List Char
  | [] => []
  | c :: cs =>
      if isAcronymDelimiter prev && !isAcronymDelimiter c then
        c :: acronymGo c cs
      else acronymGo c cs

/-- Embeds `get_acronym` from `src/ranking/mod.rs`: empty input gives an empty
acronym, otherwise the first character plus every non-delimiter character
that follows a delimiter. -/
def getAcronym : List Char → List Char
  | [] => []
  | first :: rest => first :: acronymGo first rest

/-- Boolean list-prefix test used to model byte-wise substring search
(every byte-level occurrence of a valid UTF-8 needle in a valid UTF-8
haystack is character-aligned, so the search is modelled on characters). -/
def isPref : List Char → List Char → Bool
  | [], _ => true
  | _ :: _, [] => false
  | a :: as1, b :: bs => a == b && isPref as1 bs

/-- Fuel-driven search loop behind `findFrom` (the fuel keeps the
recursion structural so that terms reduce inside the kernel; `findFrom`
supplies enough fuel to scan every candidate position). -/
def findFromAux (hay needle : List Char) : Nat → Nat → Option Nat
  | 0, _ => none
  | fuel + 1, start =>
      if start + needle.length ≤ hay.length then
        if isPref needle (hay.drop start) then some start
        else findFromAux hay needle fuel (start + 1)
      else none

/-- Model of `memchr::memmem::Finder::find` restricted to positions at or
after `start`: the leftmost occurrence of `needle` starting at index
`start` or later, or `none`. -/
def findFrom (hay needle : List Char) (start : Nat) : Option Nat :=
  findFromAux hay needle (hay.length + 1 - start) start

lemma findFrom_unfold (hay needle : List Char) (start : Nat) :
    findFrom hay needle start =
      if start + needle.length ≤ hay.length then
        if isPref needle (hay.drop start) then some start
        else findFrom hay needle (start + 1)
      else none := by
  unfold findFrom
  by_cases hs : start ≤ hay.length
  · have hfuel : hay.length + 1 - start = (hay.length + 1 - (start + 1)) + 1 := by omega
    rw [hfuel]
    rfl
  · have hfuel : hay.length + 1 - start = 0 := by omega
    have hguard : ¬ start + needle.length ≤ hay.length := by omega
    rw [hfuel, if_neg hguard]
    rfl

/-- Whether the character just before position `p` of `hay` is a literal
space; mirrors `pos > 0 && candidate_bytes[pos - 1] == b' '`. -/
def hasSpaceBefore (hay : List Char) (p : Nat) : Bool :=
  decide (0 < p) && decide (hay.getD (p - 1) (Char.ofNat 0) = ' ')

/-- The word-boundary scan of steps 7–8 of `get_match_ranking_prepared`:
starting from an already-found occurrence `p`, return `WordStartsWith` as
soon as an occurrence is preceded by a space, advancing through the
remaining non-overlapping occurrences (`memmem::FindIter` resumes each
search at the end of the previous match), else `Contains`.  The fuel is
called with `hay.length + 1`, which strictly exceeds the number of
occurrences (positions increase by at least one per step and are bounded
by `hay.length`), so the fuel never runs out on the call made below. -/
def wordScanAux (hay needle : List Char) : Nat → Nat → Ranking
  | 0, _ => .Contains
  | fuel + 1, p =>
      if hasSpaceBefore hay p then .WordStartsWith
      else
        match findFrom hay needle (p + needle.length) with
        | none => .Contains
        | some q => wordScanAux hay needle fuel q

/-- The list of non-overlapping occurrence positions visited by
`wordScanAux` from position `p` with the same fuel. -/
def occsP (hay needle : List Char) : Nat → Nat → List Nat
  | 0, _ => []
  | fuel + 1, p =>
      p :: (match findFrom hay needle (p + needle.length) with
            | none => []
            | some q => occsP hay needle fuel q)

/-- Lowercasing of a single ASCII character, mirroring
`u8::to_ascii_lowercase`. -/
def asciiLowerChar (c : Char) : Char :=
  if 65 ≤ c.toNat ∧ c.toNat ≤ 90 then Char.ofNat (c.toNat + 32) else c

/-- Model of `char::is_ascii`. -/
def isAsciiChar (c : Char) : Bool :=
  decide (c.toNat ≤ 127)

/-- Concatenation-map over characters (used for NFD decomposition and
character-wise lowercasing of strings). -/
def concatMap (f : Char → List Char) : List Char → List Char
  | [] => []
  | c :: cs => f c ++ concatMap f cs

/-- Abstraction of the external Unicode libraries used by the crate:
`unicode_normalization`'s NFD decomposition and combining-mark
classification, and `char::to_lowercase`.  The two proof fields record
facts guaranteed by those libraries: lowercasing a character yields at
least one character, and lowercasing an ASCII character is plain ASCII
lowercasing. -/
structure Uni where
  nfd : Char → List Char
  isMark : Char → Bool
  lowerChar : Char → List Char
  lower_ne : ∀ c, lowerChar c ≠ []
  lower_ascii : ∀ c, c.toNat ≤ 127 → lowerChar c = [asciiLowerChar c]

/-- Embeds `prepare_value_for_comparison` from `src/ranking/mod.rs`: identity when
`keep_diacritics` is true or the string is all-ASCII, otherwise NFD
decomposition followed by removal of combining marks.  (The `Cow`
borrow-vs-own distinction is allocation behaviour only and has no
semantic content.) -/
def prepareValueForComparison (u : Uni) (s : List Char) (keep : Bool) : List Char :=
  if keep then s
  else if s.all isAsciiChar then s
  else (concatMap u.nfd s).filter (fun c => !u.isMark c)

/-- Model of `str::to_lowercase` (used by `PreparedQuery::new`):
character-wise lowercasing. -/
def strLower (u : Uni) (s : List Char) : List Char :=
  concatMap u.lowerChar s

/-- Embeds `lowercase_into` from `src/ranking/mod.rs`: byte-wise ASCII fast path,
else character-wise lowercasing. -/
def lowercaseInto (u : Uni) (s : List Char) : List Char :=
  if s.all isAsciiChar then s.map asciiLowerChar
  else concatMap u.lowerChar s

/-- Embeds `PreparedQuery` from `src/ranking/mod.rs`. -/
structure PreparedQuery where
  prepared : List Char
  lower : List Char
  charCount : Nat

/-- Embeds `PreparedQuery::new`: prepare the query, lowercase it, and cache the
character count of the lowercased query (the ASCII byte-length fast path
agrees with the character count on ASCII strings, so both branches are
the list length here). -/
def PreparedQuery.new (u : Uni) (query : List Char) (keep : Bool) : PreparedQuery :=
  let prepared := prepareValueForComparison u query keep
  let lower := strLower u prepared
  { prepared := prepared, lower := lower, charCount := lower.length }

/-- Embeds `get_match_ranking_prepared` from `src/ranking/mod.rs`: the 11-step
classification.  The `finder` argument of the Rust function is `None`
exactly when the lowercased query is empty, which is the `isEmpty` branch
below; byte positions of `memmem` are modelled by character positions
(UTF-8 occurrences of a needle are always character-aligned, and the byte
before a character boundary is `0x20` exactly when the previous character
is a space). -/
def getMatchRankingPrepared (u : Uni) (testString : List Char)
    (pq : PreparedQuery) (keep : Bool) : Ranking :=
  let candidate := prepareValueForComparison u testString keep
  if pq.charCount > candidate.length then .NoMatch
  else if candidate = pq.prepared then .CaseSensitiveEqual
  else
    let cbuf := lowercaseInto u candidate
    if pq.lower.isEmpty then
      if cbuf.isEmpty then .Equal else .StartsWith
    else
      match findFrom cbuf pq.lower 0 with
      | some first =>
          if first = 0 then
            if cbuf.length = pq.lower.length then .Equal else .StartsWith
          else wordScanAux cbuf pq.lower (cbuf.length + 1) first
      | none =>
          if pq.charCount = 1 then .NoMatch
          else if (findFrom (getAcronym cbuf) pq.lower 0).isSome then .Acronym
          else getClosenessRanking cbuf pq.lower

/-- Embeds `get_match_ranking` from `src/ranking/mod.rs`: the thin wrapper that
builds a `PreparedQuery` (and the substring finder) for one-off calls. -/
def getMatchRanking (u : Uni) (testString stringToRank : List Char)
    (keep : Bool) : Ranking :=
  getMatchRankingPrepared u testString (PreparedQuery.new u stringToRank keep) keep

/-- A `Key<T>` from `src/key.rs`: an extractor plus optional per-key
threshold and the clamping bounds (defaults in the Rust builder are
`threshold = None`, `min_ranking = NoMatch`,
`max_ranking = CaseSensitiveEqual`). -/
structure Key (T : Type) where
  extract : T → List (List Char)
  threshold : Option Ranking
  minRanking : Ranking
  maxRanking : Ranking

/-- Embeds `RankingInfo` from `src/key.rs`. -/
structure RankingInfo where
  rank : Ranking
  rankedValue : List Char
  keyIndex : Nat
  keyThreshold : Option Ranking
deriving DecidableEq

/-- The per-value body of the `get_highest_ranking` loop: compute the raw
rank, clamp down to `max_ranking` when strictly above it, then promote up
to `min_ranking` when strictly below it and not `NoMatch`. -/
def adjustRank (u : Uni) (keep : Bool) (query : List Char)
    (mn mx : Ranking) (value : List Char) : Ranking :=
  let rank := getMatchRanking u value query keep
  let rank := if rank.rgt mx then mx else rank
  if rank.rlt mn && !(rank.req .NoMatch) then mn else rank

/-- The inner `for value in &values` loop of `get_highest_ranking`,
threading the running best and the flattened `key_index` counter. -/
def ghrVals (u : Uni) (keep : Bool) (query : List Char)
    (thr : Option Ranking) (mn mx : Ranking) :
    List (List Char) → RankingInfo × Nat → RankingInfo × Nat
  | [], st => st
  | v :: vs, (best, ki) =>
      let rank := adjustRank u keep query mn mx v
      let best := if rank.rgt best.rank then
          { rank := rank, rankedValue := v, keyIndex := ki, keyThreshold := thr }
        else best
      ghrVals u keep query thr mn mx vs (best, ki + 1)

/-- Embeds `get_highest_ranking` from `src/key.rs`: fold all keys' values in
declaration order, starting from the default
`(NoMatch, "", key_index 0, no threshold)` info and replacing the best
only on a strictly greater rank.  The Rust function receives the whole
options struct but reads only `keep_diacritics`, which is what is passed
here. -/
def getHighestRanking {T : Type} (u : Uni) (item : T) (keys : List (Key T))
    (query : List Char) (keep : Bool) : RankingInfo :=
  (keys.foldl
    (fun st k => ghrVals u keep query k.threshold k.minRanking k.maxRanking
      (k.extract item) st)
    ({ rank := .NoMatch, rankedValue := [], keyIndex := 0, keyThreshold := none }, 0)).1

/-- A `RankedItem` from `src/options.rs` (the borrowed reference becomes
the item value itself). -/
structure RankedItem (T : Type) where
  item : T
  index : Nat
  rank : Ranking
  rankedValue : List Char
  keyIndex : Nat
  keyThreshold : Option Ranking

/-- Embeds `MatchSorterOptions` from `src/options.rs`. -/
structure MatchSorterOptions (T : Type) where
  keys : List (Key T)
  threshold : Ranking
  keepDiacritics : Bool
  baseSort : Option (RankedItem T → RankedItem T → Ordering)
  sorter : Option (List (RankedItem T) → List (RankedItem T))

/-- Lexicographic three-way comparison of strings by code point,
mirroring Rust's byte-wise `str::cmp` (UTF-8 byte order equals code-point
order). -/
def strCmp : List Char → List Char → Ordering
  | [], [] => .eq
  | [], _ :: _ => .lt
  | _ :: _, [] => .gt
  | a :: as1, b :: bs => (ncmp a.toNat b.toNat).then (strCmp as1 bs)

/-- Embeds `default_base_sort` from `src/sort.rs`: alphabetical comparison of the
ranked values. -/
def defaultBaseSort {T : Type} (a b : RankedItem T) : Ordering :=
  strCmp a.rankedValue b.rankedValue

/-- Embeds `sort_ranked_values` from `src/sort.rs`: rank descending with an
indeterminate comparison treated as equal, then key index ascending, then
the supplied tiebreaker. -/
def sortRankedValues {T : Type} (a b : RankedItem T)
    (baseSort : RankedItem T → RankedItem T → Ordering) : Ordering :=
  (((Ranking.rcmp b.rank a.rank).getD .eq).then
    (ncmp a.keyIndex b.keyIndex)).then (baseSort a b)

/-- Modelled from the spec: `get_highest_ranking_prepared` is imported by
`src/lib.rs` but absent from the provided `src/key.rs`; per the
performance contract of §4.5 of the spec ("implementations should support
amortizing query preparation … This does not change outputs"), it is
modelled as `get_highest_ranking` evaluated on the un-prepared query. -/
def getHighestRankingPrepared {T : Type} (u : Uni) (item : T)
    (keys : List (Key T)) (query : List Char) (keep : Bool) : RankingInfo :=
  getHighestRanking u item keys query keep

/-- The per-item computation of `match_sorter`'s rank-and-filter loop:
no-keys mode ranks the item's own string with `key_index` 0 and no per-key
threshold; keys mode takes the best ranking across all keys. -/
def rankOne {T : Type} (u : Uni) (ams : T → List Char) (value : List Char)
    (opts : MatchSorterOptions T) (idx : Nat) (it : T) : RankedItem T :=
  if opts.keys.isEmpty then
    { item := it, index := idx,
      rank := getMatchRanking u (ams it) value opts.keepDiacritics,
      rankedValue := ams it, keyIndex := 0, keyThreshold := none }
  else
    let info := getHighestRankingPrepared u it opts.keys value opts.keepDiacritics
    { item := it, index := idx, rank := info.rank,
      rankedValue := info.rankedValue, keyIndex := info.keyIndex,
      keyThreshold := info.keyThreshold }

/-- Step 1 of `match_sorter`: rank every item in input order and keep it
exactly when its rank is `>=` the effective threshold (the per-key
threshold when present, else the global one). -/
def rankAndFilter {T : Type} (u : Uni) (ams : T → List Char)
    (items : List T) (value : List Char) (opts : MatchSorterOptions T) :
    List (RankedItem T) :=
  items.enum.filterMap (fun p =>
    let ri := rankOne u ams value opts p.1 p.2
    if ri.rank.rge (ri.keyThreshold.getD opts.threshold) then some ri else none)

/-- Steps 1–2 of `match_sorter`: the filtered vector after sorting — the
full `sorter` override used verbatim when supplied, otherwise the stable
sort by the three-level comparator with `base_sort` (or the default
tiebreaker). -/
def matchSorterRanked {T : Type} (u : Uni) (ams : T → List Char)
    (items : List T) (value : List Char) (opts : MatchSorterOptions T) :
    List (RankedItem T) :=
  let ranked := rankAndFilter u ams items value opts
  match opts.sorter with
  | some f => f ranked
  | none =>
      ranked.mergeSort (fun a b =>
        match sortRankedValues a b (opts.baseSort.getD defaultBaseSort) with
        | .gt => false
        | _ => true)

/-- Embeds `match_sorter` from `src/lib.rs`: rank-and-filter, sort, extract. -/
def matchSorter {T : Type} (u : Uni) (ams : T → List Char)
    (items : List T) (value : List Char) (opts : MatchSorterOptions T) :
    List T :=
  (matchSorterRanked u ams items value opts).map (·.item)

/-- A concrete `Uni` for ASCII-only examples: no decompositions, no marks,
ASCII lowercasing — the behaviour of the real Unicode libraries on ASCII
input. -/
def uniTriv : Uni where
  nfd := fun c => [c]
  isMark := fun _ => false
  lowerChar := fun c => [asciiLowerChar c]
  lower_ne := fun _ => List.cons_ne_nil _ _
  lower_ascii := fun _ _ => rfl

/-- A concrete `Uni` that additionally models U+0301 COMBINING ACUTE
ACCENT as a combining mark (as `unicode_normalization::char::is_combining_mark`
classifies it); characters decompose to themselves, which matches NFD on
strings that are already fully decomposed. -/
def uniAcc : Uni where
  nfd := fun c => [c]
  isMark := fun c => decide (c.toNat = 769)
  lowerChar := fun c => [asciiLowerChar c]
  lower_ne := fun _ => List.cons_ne_nil _ _
  lower_ascii := fun _ _ => rfl

section CmpLemmas

lemma rlt_eq_true_iff (x y : Ranking) :
    x.rlt y = true ↔ x.rcmp y = some .lt := by
  unfold Ranking.rlt
  cases h : x.rcmp y with
  | none => simp
  | some o => cases o <;> simp

lemma rgt_eq_true_iff (x y : Ranking) :
    x.rgt y = true ↔ x.rcmp y = some .gt := by
  unfold Ranking.rgt
  cases h : x.rcmp y with
  | none => simp
  | some o => cases o <;> simp

lemma rge_eq_true_iff (x y : Ranking) :
    x.rge y = true ↔ (x.rcmp y = some .gt ∨ x.rcmp y = some .eq) := by
  unfold Ranking.rge
  cases h : x.rcmp y with
  | none => simp
  | some o => cases o <;> simp

lemma ncmp_eq_iff (a b : Nat) : ncmp a b = .eq ↔ a = b := by
  unfold ncmp
  split
  · constructor
    · intro h; cases h
    · intro h; omega
  · split
    · simp_all
    · constructor
      · intro h; cases h
      · intro h; omega

end CmpLemmas

/-- C3: the Ranking comparison realises the documented chain
`CaseSensitiveEqual > Equal > StartsWith > WordStartsWith > Contains >
Acronym > Matches(s) > NoMatch` for every finite sub-score `s`; two
`Matches` values compare exactly by sub-score; a `Matches` value against
any fixed (non-`Matches`) tier compares by base tier 1; and in particular
`Acronym > Matches(2.0)`. -/
theorem c3_ranking_order :
    (Ranking.rgt .CaseSensitiveEqual .Equal = true ∧
     Ranking.rgt .Equal .StartsWith = true ∧
     Ranking.rgt .StartsWith .WordStartsWith = true ∧
     Ranking.rgt .WordStartsWith .Contains = true ∧
     Ranking.rgt .Contains .Acronym = true) ∧
    (∀ q : ℚ, Ranking.rgt .Acronym (.Matches (.val q)) = true ∧
      Ranking.rgt (.Matches (.val q)) .NoMatch = true) ∧
    (∀ a b : ℚ,
      Ranking.rcmp (.Matches (.val a)) (.Matches (.val b)) = some (qcmp a b)) ∧
    (∀ s : F64, ∀ t : Ranking, (∀ x, t ≠ .Matches x) →
      Ranking.rcmp (.Matches s) t = some (ncmp 1 t.tierValue) ∧
      Ranking.rcmp t (.Matches s) = some (ncmp t.tierValue 1)) ∧
    Ranking.rgt .Acronym (.Matches (.val 2)) = true := by
  refine ⟨by decide, fun q => ⟨rfl, rfl⟩, fun a b => rfl, ?_, by decide⟩
  intro s t h
  cases t with
  | Matches x => exact absurd rfl (h x)
  | CaseSensitiveEqual => exact ⟨rfl, rfl⟩
  | Equal => exact ⟨rfl, rfl⟩
  | StartsWith => exact ⟨rfl, rfl⟩
  | WordStartsWith => exact ⟨rfl, rfl⟩
  | Contains => exact ⟨rfl, rfl⟩
  | Acronym => exact ⟨rfl, rfl⟩
  | NoMatch => exact ⟨rfl, rfl⟩

/-- Witness for C3 at a concrete fixed tier: `Matches(2.0)` against
`Acronym` compares by base tier 1 against 2. -/
theorem c3_witness :
    Ranking.rcmp (.Matches (.val 2)) .Acronym = some (ncmp 1 2) ∧
    Ranking.rcmp .Acronym (.Matches (.val 2)) = some (ncmp 2 1) :=
  c3_ranking_order.2.2.2.1 (.val 2) .Acronym (fun x h => Ranking.noConfusion h)

/-- C9: when a rank is `Matches(NaN)` and the level-1 comparison is
indeterminate, `sort_ranked_values` resolves that level to `Equal` and
defers to the key-index comparison and then the tiebreaker, returning a
defined `Ordering`. -/
theorem c9_nan_defers {T : Type} (a b : RankedItem T)
    (f : RankedItem T → RankedItem T → Ordering)
    (h1 : a.rank = .Matches .nan ∨ b.rank = .Matches .nan)
    (h2 : Ranking.rcmp b.rank a.rank = none) :
    sortRankedValues a b f = (ncmp a.keyIndex b.keyIndex).then (f a b) := by
  simp only [sortRankedValues, h2, Option.getD]
  rfl

def riNanA : RankedItem Unit :=
  { item := (), index := 0, rank := .Matches .nan, rankedValue := [],
    keyIndex := 0, keyThreshold := none }

def riNanB : RankedItem Unit :=
  { item := (), index := 1, rank := .Matches .nan, rankedValue := ['a'],
    keyIndex := 2, keyThreshold := none }

/-- Witness for C9: two items with NaN ranks compare by key index and the
tiebreaker. -/
theorem c9_witness :
    sortRankedValues riNanA riNanB (fun _ _ => Ordering.gt) =
      (ncmp 0 2).then Ordering.gt :=
  c9_nan_defers riNanA riNanB (fun _ _ => Ordering.gt) (Or.inl rfl) rfl

/-- C7: `sort_ranked_values` orders by rank descending first (a determinate
strictly-greater rank decides the result), by key index ascending when the
ranks compare equal, and the tiebreaker can influence the result only when
both earlier levels are equal: whenever the ranks compare determinately
unequal or the key indexes differ, the result is independent of the
tiebreaker. -/
theorem c7_sort_levels {T : Type} (a b : RankedItem T) :
    (∀ f, Ranking.rlt b.rank a.rank = true → sortRankedValues a b f = .lt) ∧
    (∀ f, Ranking.rgt b.rank a.rank = true → sortRankedValues a b f = .gt) ∧
    (∀ f, Ranking.rcmp b.rank a.rank = some .eq →
      sortRankedValues a b f = (ncmp a.keyIndex b.keyIndex).then (f a b)) ∧
    (∀ f g,
      ((∃ o, Ranking.rcmp b.rank a.rank = some o ∧ o ≠ .eq) ∨
        a.keyIndex ≠ b.keyIndex) →
      sortRankedValues a b f = sortRankedValues a b g) := by
  refine ⟨?_, ?_, ?_, ?_⟩
  · intro f h
    rw [rlt_eq_true_iff] at h
    simp only [sortRankedValues, h, Option.getD]
    rfl
  · intro f h
    rw [rgt_eq_true_iff] at h
    simp only [sortRankedValues, h, Option.getD]
    rfl
  · intro f h
    simp only [sortRankedValues, h, Option.getD]
    rfl
  · intro f g h
    rcases h with ⟨o, ho, hne⟩ | hk
    · cases o with
      | lt => simp only [sortRankedValues, ho, Option.getD]; rfl
      | eq => exact absurd rfl hne
      | gt => simp only [sortRankedValues, ho, Option.getD]; rfl
    · have hn : ncmp a.keyIndex b.keyIndex ≠ .eq := fun h => hk ((ncmp_eq_iff _ _).mp h)
      simp only [sortRankedValues]
      cases hr : (Ranking.rcmp b.rank a.rank).getD .eq with
      | lt => rfl
      | gt => rfl
      | eq =>
          cases hc : ncmp a.keyIndex b.keyIndex with
          | lt => rfl
          | gt => rfl
          | eq => exact absurd hc hn

def riSwA : RankedItem Unit :=
  { item := (), index := 0, rank := .StartsWith, rankedValue := [],
    keyIndex := 0, keyThreshold := none }

def riCoB : RankedItem Unit :=
  { item := (), index := 1, rank := .Contains, rankedValue := ['a'],
    keyIndex := 0, keyThreshold := none }

/-- Witness for C7: with determinately different ranks, two arbitrary
tiebreakers produce the same result. -/
theorem c7_witness :
    sortRankedValues riSwA riCoB (fun _ _ => Ordering.lt) =
      sortRankedValues riSwA riCoB (fun _ _ => Ordering.gt) :=
  (c7_sort_levels riSwA riCoB).2.2.2 (fun _ _ => Ordering.lt)
    (fun _ _ => Ordering.gt) (Or.inl ⟨.lt, rfl, by decide⟩)

/-- Specification-side greedy scan: the list of positions at which the
query's characters are matched by the greedy left-to-right in-order scan
of the candidate, or `none` when some query character cannot be found. -/
def greedyList (cand : List Char) (pos : Nat) : List Char → Option (List Nat)
  | [] => some []
  | q :: qs =>
      match findMatchingChar q cand pos with
      | none => none
      | some (p, rest) => (greedyList rest (p + 1) qs).map (fun ps => p :: ps)

/-- The sub-score the spec assigns to a spread: `2.0` when the spread is
zero, else `1.0 + 1.0/spread`. -/
def mkScore (d : Nat) : Ranking :=
  if d = 0 then .Matches (.val 2) else .Matches (.val (1 + 1 / (d : ℚ)))

lemma closenessLoop_eq (query : List Char) :
    ∀ (cand : List Char) (pos : Nat) (first : Option Nat) (last : Nat),
    closenessLoop cand pos query first last =
      match greedyList cand pos query with
      | none => .NoMatch
      | some ps =>
          mkScore (ps.getLastD last -
            (match first, ps with
             | some f0, _ => f0
             | none, p :: _ => p
             | none, [] => 0)) := by
  induction query with
  | nil =>
      intro cand pos first last
      cases first <;> simp [closenessLoop, greedyList, mkScore]
  | cons q qs ih =>
      intro cand pos first last
      simp only [closenessLoop, greedyList]
      cases hf : findMatchingChar q cand pos with
      | none => rfl
      | some pr =>
          obtain ⟨p, rest⟩ := pr
          simp only [ih]
          cases hg : greedyList rest (p + 1) qs with
          | none => rfl
          | some ps =>
              simp only [Option.map_some', List.getLastD_cons]
              cases first <;> rfl

lemma greedyList_isSome_iff :
    ∀ (cand : List Char) (pos : Nat) (query : List Char),
    (greedyList cand pos query).isSome ↔ List.Sublist query cand := by
  intro cand
  induction cand with
  | nil =>
      intro pos query
      cases query with
      | nil => simp [greedyList]
      | cons q qs => simp [greedyList, findMatchingChar]
  | cons c cs ih =>
      intro pos query
      cases query with
      | nil => simp [greedyList]
      | cons q qs =>
          by_cases hc : c = q
          · subst hc
            have h1 : greedyList (c :: cs) pos (c :: qs) =
                (greedyList cs (pos + 1) qs).map (fun ps => pos :: ps) := by
              simp [greedyList, findMatchingChar]
            rw [h1]
            constructor
            · intro h
              have := (ih (pos + 1) qs).mp (by simpa using h)
              exact List.Sublist.cons₂ c this
            · intro h
              have hqs : List.Sublist qs cs := by
                cases h with
                | cons₂ _ hs => exact hs
                | cons _ hs => exact List.sublist_of_cons_sublist hs
              simpa using (ih (pos + 1) qs).mpr hqs
          · have h1 : greedyList (c :: cs) pos (q :: qs) =
                greedyList cs (pos + 1) (q :: qs) := by
              simp [greedyList, findMatchingChar, hc]
            rw [h1, ih (pos + 1) (q :: qs)]
            constructor
            · intro h
              exact List.Sublist.cons c h
            · intro h
              cases h with
              | cons₂ _ _ => exact absurd rfl hc
              | cons _ hs => exact hs

lemma mkScore_range (d : Nat) :
    ∃ r : ℚ, mkScore d = .Matches (.val r) ∧ 1 < r ∧ r ≤ 2 := by
  unfold mkScore
  by_cases hd : d = 0
  · exact ⟨2, by simp [hd], by norm_num, le_refl 2⟩
  · refine ⟨1 + 1 / (d : ℚ), by simp [hd], ?_, ?_⟩
    · have h1 : (0 : ℚ) < (d : ℚ) := by
        exact_mod_cast Nat.pos_of_ne_zero hd
      have : (0 : ℚ) < 1 / (d : ℚ) := by positivity
      linarith
    · have h1 : (1 : ℚ) ≤ (d : ℚ) := by
        exact_mod_cast Nat.one_le_iff_ne_zero.mpr hd
      have : 1 / (d : ℚ) ≤ 1 := by
        rw [div_le_one (by linarith)]
        exact h1
      linarith

lemma getClosenessRanking_eq (candidate query : List Char) :
    getClosenessRanking candidate query =
      match greedyList candidate 0 query with
      | none => Ranking.NoMatch
      | some ps => mkScore (ps.getLastD 0 - ps.headD 0) := by
  rw [getClosenessRanking, closenessLoop_eq]
  cases hg : greedyList candidate 0 query with
  | none => rfl
  | some ps => cases ps <;> rfl

/-- C6: `get_closeness_ranking` returns `NoMatch` exactly when the greedy
left-to-right scan fails — equivalently, when the query is not a
subsequence of the candidate; otherwise it returns `Matches(2.0)` when
the spread between the last and first greedily-matched positions is zero
and `Matches(1 + 1/spread)` when it is positive, so every `Matches`
result carries a sub-score in the interval `(1, 2]`. -/
theorem c6_closeness (candidate query : List Char) :
    (getClosenessRanking candidate query = .NoMatch ↔
      ¬ List.Sublist query candidate) ∧
    (∀ s, getClosenessRanking candidate query = .Matches s →
      ∃ ps, greedyList candidate 0 query = some ps ∧
        .Matches s = mkScore (ps.getLastD 0 - ps.headD 0) ∧
        ∃ r : ℚ, s = .val r ∧ 1 < r ∧ r ≤ 2) := by
  have hmain := getClosenessRanking_eq candidate query
  have hiff := greedyList_isSome_iff candidate 0 query
  constructor
  · cases hg : greedyList candidate 0 query with
    | none =>
        rw [hg] at hiff
        simp only [Option.isSome_none, Bool.false_eq_true, false_iff] at hiff
        have hcq : getClosenessRanking candidate query = Ranking.NoMatch := by
          rw [hmain, hg]
        simp [hcq, hiff]
    | some ps =>
        rw [hg] at hiff
        simp only [Option.isSome_some, true_iff] at hiff
        have hcq : getClosenessRanking candidate query =
            mkScore (ps.getLastD 0 - ps.headD 0) := by
          rw [hmain, hg]
        obtain ⟨r, hr, _, _⟩ := mkScore_range (ps.getLastD 0 - ps.headD 0)
        rw [hcq, hr]
        simp [hiff]
  · intro s hs
    cases hg : greedyList candidate 0 query with
    | none =>
        have hcq : getClosenessRanking candidate query = Ranking.NoMatch := by
          rw [hmain, hg]
        rw [hcq] at hs
        cases hs
    | some ps =>
        have hcq : getClosenessRanking candidate query =
            mkScore (ps.getLastD 0 - ps.headD 0) := by
          rw [hmain, hg]
        rw [hcq] at hs
        refine ⟨ps, rfl, hs.symm, ?_⟩
        obtain ⟨r, hr, h1, h2⟩ := mkScore_range (ps.getLastD 0 - ps.headD 0)
        rw [hs] at hr
        have : s = F64.val r := by
          simpa [Ranking.Matches.injEq] using hr
        exact ⟨r, this, h1, h2⟩

/-- Witness for C6: the fuzzy match of `"abc"` inside `"abcdef"` has
spread 2 and sub-score `3/2`. -/
theorem c6_witness :
    getClosenessRanking ['a', 'b', 'c', 'd', 'e', 'f'] ['a', 'b', 'c'] =
      .Matches (.val (3 / 2)) ∧
    ∃ ps, greedyList ['a', 'b', 'c', 'd', 'e', 'f'] 0 ['a', 'b', 'c'] = some ps ∧
      Ranking.Matches (.val (3 / 2)) = mkScore (ps.getLastD 0 - ps.headD 0) ∧
      ∃ r : ℚ, F64.val (3 / 2) = .val r ∧ 1 < r ∧ r ≤ 2 := by
  have h : getClosenessRanking ['a', 'b', 'c', 'd', 'e', 'f'] ['a', 'b', 'c'] =
      .Matches (.val (3 / 2)) := by
    norm_num [getClosenessRanking, closenessLoop, findMatchingChar]
  exact ⟨h, (c6_closeness ['a', 'b', 'c', 'd', 'e', 'f'] ['a', 'b', 'c']).2
    (.val (3 / 2)) h⟩

lemma length_le_concatMap (f : Char → List Char) (hf : ∀ c, f c ≠ [])
    (s : List Char) : s.length ≤ (concatMap f s).length := by
  induction s with
  | nil => simp [concatMap]
  | cons c cs ih =>
      have h1 : 1 ≤ (f c).length := by
        cases hfc : f c with
        | nil => exact absurd hfc (hf c)
        | cons x xs => simp
      simp only [concatMap, List.length_cons, List.length_append]
      omega

/-- C2 counterexample: with diacritics stripping on, the two-character
query `"e"+U+0301` (combining acute accent) ranks the one-character
candidate `"e"` as `CaseSensitiveEqual`, although the raw character count
of the query (2) exceeds that of the candidate (1) — preparation strips
the mark before the count comparison. -/
theorem c2_counterexample :
    (['e', Char.ofNat 769] : List Char).length > (['e'] : List Char).length ∧
    getMatchRanking uniAcc ['e'] ['e', Char.ofNat 769] false =
      .CaseSensitiveEqual ∧
    Ranking.CaseSensitiveEqual ≠ .NoMatch := by
  refine ⟨by decide, by decide, by decide⟩

/-- C2 amended: whenever the character count of the prepared
(diacritics-handled) query exceeds the character count of the prepared
candidate, `get_match_ranking` returns `NoMatch` (the lowercased query
can only grow, so step 1 always fires). -/
theorem c2_amended (u : Uni) (a b : List Char) (keep : Bool)
    (h : (prepareValueForComparison u a keep).length <
         (prepareValueForComparison u b keep).length) :
    getMatchRanking u a b keep = .NoMatch := by
  have hq : (prepareValueForComparison u a keep).length <
      (strLower u (prepareValueForComparison u b keep)).length :=
    lt_of_lt_of_le h (length_le_concatMap u.lowerChar u.lower_ne _)
  simp only [getMatchRanking, getMatchRankingPrepared, PreparedQuery.new]
  rw [if_pos hq]

/-- Witness for C2 (amended): a three-character query against a
one-character candidate. -/
theorem c2_witness :
    (prepareValueForComparison uniTriv ['a'] false).length <
      (prepareValueForComparison uniTriv ['x', 'y', 'z'] false).length ∧
    getMatchRanking uniTriv ['a'] ['x', 'y', 'z'] false = .NoMatch :=
  ⟨by decide, c2_amended uniTriv ['a'] ['x', 'y', 'z'] false (by decide)⟩

lemma map_ascii_eq_concat (u : Uni) :
    ∀ s : List Char, s.all isAsciiChar = true →
      s.map asciiLowerChar = concatMap u.lowerChar s := by
  intro s
  induction s with
  | nil => intro _; rfl
  | cons c cs ih =>
      intro h
      simp only [List.all_cons, Bool.and_eq_true] at h
      have hc : u.lowerChar c = [asciiLowerChar c] :=
        u.lower_ascii c (by simpa [isAsciiChar] using h.1)
      simp only [List.map_cons, concatMap, hc, List.singleton_append]
      rw [ih h.2]

lemma lowercaseInto_eq_strLower (u : Uni) (s : List Char) :
    lowercaseInto u s = strLower u s := by
  unfold lowercaseInto strLower
  by_cases h : s.all isAsciiChar
  · rw [if_pos h]
    exact map_ascii_eq_concat u s h
  · rw [if_neg h]

lemma isPref_refl (l : List Char) : isPref l l = true := by
  induction l with
  | nil => rfl
  | cons a as ih => simp [isPref, ih]

lemma findFrom_self (l : List Char) : findFrom l l 0 = some 0 := by
  rw [findFrom_unfold]
  simp [isPref_refl]

lemma findFrom_nil_needle (l : List Char) : findFrom l [] 0 = some 0 := by
  rw [findFrom_unfold]
  simp [isPref]

lemma wordScanAux_eq (hay needle : List Char) :
    ∀ (fuel p : Nat),
    wordScanAux hay needle fuel p =
      if (occsP hay needle fuel p).any (fun q => hasSpaceBefore hay q) then
        .WordStartsWith else .Contains := by
  intro fuel
  induction fuel with
  | zero => intro p; rfl
  | succ n ih =>
      intro p
      by_cases hsp : hasSpaceBefore hay p = true
      · simp [wordScanAux, occsP, hsp]
      · cases hf : findFrom hay needle (p + needle.length) with
        | none => simp [wordScanAux, occsP, hsp, hf]
        | some q => simp [wordScanAux, occsP, hsp, hf, ih q]

/-- C1 counterexample: for the candidate `"ba a a"` and query `"a a"`,
the lowercased query first occurs at position 1 (not 0), and among all
occurrence positions — including the overlapping occurrence at position 3
— one is immediately preceded by a space; yet `get_match_ranking` returns
`Contains`, not `WordStartsWith`, because the `memmem` iterator only
visits non-overlapping occurrences and skips position 3. -/
theorem c1_counterexample :
    (findFrom (lowercaseInto uniTriv
        (prepareValueForComparison uniTriv ['b', 'a', ' ', 'a', ' ', 'a'] false))
      (PreparedQuery.new uniTriv ['a', ' ', 'a'] false).lower 0 = some 1) ∧
    ((List.range 7).any (fun p =>
        isPref (PreparedQuery.new uniTriv ['a', ' ', 'a'] false).lower
          ((lowercaseInto uniTriv
            (prepareValueForComparison uniTriv ['b', 'a', ' ', 'a', ' ', 'a'] false)).drop p)
        && hasSpaceBefore
          (lowercaseInto uniTriv
            (prepareValueForComparison uniTriv ['b', 'a', ' ', 'a', ' ', 'a'] false)) p)
      = true) ∧
    getMatchRanking uniTriv ['b', 'a', ' ', 'a', ' ', 'a'] ['a', ' ', 'a'] false =
      .Contains ∧
    Ranking.Contains ≠ .WordStartsWith := by
  refine ⟨by decide, by decide, by decide, by decide⟩

/-- C1 amended: when step 1 passes and the lowercased query first occurs
in the lowercased candidate at a position other than 0, the result is
`WordStartsWith` if any of the *non-overlapping* occurrences visited by
the substring iterator (each next search resuming at the end of the
previous match) is immediately preceded by a literal space, and
`Contains` otherwise. -/
theorem c1_amended (u : Uni) (cand q : List Char) (keep : Bool) (f : Nat)
    (h1 : (PreparedQuery.new u q keep).charCount ≤
          (prepareValueForComparison u cand keep).length)
    (h2 : findFrom (lowercaseInto u (prepareValueForComparison u cand keep))
            (PreparedQuery.new u q keep).lower 0 = some f)
    (h3 : f ≠ 0) :
    getMatchRanking u cand q keep =
      if (occsP (lowercaseInto u (prepareValueForComparison u cand keep))
            (PreparedQuery.new u q keep).lower
            ((lowercaseInto u (prepareValueForComparison u cand keep)).length + 1)
            f).any
          (fun p => hasSpaceBefore
            (lowercaseInto u (prepareValueForComparison u cand keep)) p)
      then .WordStartsWith else .Contains := by
  have hlow : (PreparedQuery.new u q keep).lower =
      strLower u (prepareValueForComparison u q keep) := rfl
  have hneq : prepareValueForComparison u cand keep ≠
      prepareValueForComparison u q keep := by
    intro heq
    apply h3
    have h2a := h2
    rw [hlow, lowercaseInto_eq_strLower, heq, findFrom_self] at h2a
    exact (Option.some.inj h2a).symm
  have hnil : strLower u (prepareValueForComparison u q keep) ≠ [] := by
    intro hn
    apply h3
    have h2a := h2
    rw [hlow, hn, findFrom_nil_needle] at h2a
    exact (Option.some.inj h2a).symm
  have hiem : (strLower u (prepareValueForComparison u q keep)).isEmpty = false := by
    cases hL : strLower u (prepareValueForComparison u q keep) with
    | nil => exact absurd hL hnil
    | cons x xs => rfl
  rw [hlow] at h2
  simp only [getMatchRanking, getMatchRankingPrepared, PreparedQuery.new] at h1 ⊢
  rw [if_neg (Nat.not_lt.mpr h1), if_neg hneq]
  simp only [hiem, Bool.false_eq_true, if_false, h2]
  rw [if_neg h3, wordScanAux_eq]

/-- Witness for C1 (amended): `"xfoo bar foo"` against `"foo"` — the
first occurrence (position 1) is not space-preceded, the next
non-overlapping occurrence (position 9) is, so the rank is
`WordStartsWith`. -/
theorem c1_witness :
    ((PreparedQuery.new uniTriv ['f', 'o', 'o'] false).charCount ≤
      (prepareValueForComparison uniTriv
        ['x', 'f', 'o', 'o', ' ', 'b', 'a', 'r', ' ', 'f', 'o', 'o'] false).length) ∧
    getMatchRanking uniTriv
        ['x', 'f', 'o', 'o', ' ', 'b', 'a', 'r', ' ', 'f', 'o', 'o']
        ['f', 'o', 'o'] false =
      (if (occsP (lowercaseInto uniTriv (prepareValueForComparison uniTriv
              ['x', 'f', 'o', 'o', ' ', 'b', 'a', 'r', ' ', 'f', 'o', 'o'] false))
            (PreparedQuery.new uniTriv ['f', 'o', 'o'] false).lower
            ((lowercaseInto uniTriv (prepareValueForComparison uniTriv
              ['x', 'f', 'o', 'o', ' ', 'b', 'a', 'r', ' ', 'f', 'o', 'o'] false)).length + 1)
            1).any
          (fun p => hasSpaceBefore
            (lowercaseInto uniTriv (prepareValueForComparison uniTriv
              ['x', 'f', 'o', 'o', ' ', 'b', 'a', 'r', ' ', 'f', 'o', 'o'] false)) p)
      then .WordStartsWith else .Contains) :=
  ⟨by decide,
    c1_amended uniTriv ['x', 'f', 'o', 'o', ' ', 'b', 'a', 'r', ' ', 'f', 'o', 'o']
      ['f', 'o', 'o'] false 1 (by decide) (by decide) (by decide)⟩

lemma rankOne_index {T : Type} (u : Uni) (ams : T → List Char)
    (value : List Char) (opts : MatchSorterOptions T) (idx : Nat) (it : T) :
    (rankOne u ams value opts idx it).index = idx := by
  unfold rankOne
  split <;> rfl

lemma rankOne_no_keys {T : Type} (u : Uni) (ams : T → List Char)
    (value : List Char) (opts : MatchSorterOptions T) (idx : Nat) (it : T)
    (hk : opts.keys = []) :
    rankOne u ams value opts idx it =
      { item := it, index := idx,
        rank := getMatchRanking u (ams it) value opts.keepDiacritics,
        rankedValue := ams it, keyIndex := 0, keyThreshold := none } := by
  unfold rankOne
  rw [if_pos]
  rw [hk]
  rfl

lemma raf_mem {T : Type} (u : Uni) (ams : T → List Char) (items : List T)
    (value : List Char) (opts : MatchSorterOptions T) (i : Nat)
    (h : i < items.length) :
    ((rankAndFilter u ams items value opts).any (fun r => r.index == i)) = true ↔
      ((rankOne u ams value opts i items[i]).rank.rge
        (((rankOne u ams value opts i items[i]).keyThreshold).getD
          opts.threshold)) = true := by
  constructor
  · intro hany
    rw [List.any_eq_true] at hany
    obtain ⟨r, hr, hbeq⟩ := hany
    rw [rankAndFilter, List.mem_filterMap] at hr
    obtain ⟨p, hp, hstep⟩ := hr
    obtain ⟨a, b⟩ := p
    simp only [beq_iff_eq] at hbeq
    by_cases hc : ((rankOne u ams value opts a b).rank.rge
        (((rankOne u ams value opts a b).keyThreshold).getD opts.threshold)) = true
    · rw [if_pos hc] at hstep
      have hre : r = rankOne u ams value opts a b := (Option.some.inj hstep).symm
      have hidx : a = i := by
        rw [hre, rankOne_index] at hbeq
        exact hbeq
      subst hidx
      rw [List.mem_enum_iff_getElem?] at hp
      have hb : b = items[a] := by
        have := List.getElem?_eq_getElem h
        rw [this] at hp
        exact (Option.some.inj hp).symm
      rw [← hb]
      exact hc
    · rw [if_neg hc] at hstep
      cases hstep
  · intro hc
    rw [List.any_eq_true]
    refine ⟨rankOne u ams value opts i items[i], ?_, ?_⟩
    · rw [rankAndFilter, List.mem_filterMap]
      refine ⟨(i, items[i]), ?_, ?_⟩
      · rw [List.mem_enum_iff_getElem?]
        exact List.getElem?_eq_getElem h
      · rw [if_pos hc]
    · simp [rankOne_index]

lemma rge_noMatch (r : Ranking) : r.rge .NoMatch = true := by
  cases r <;> rfl

lemma rge_cse_iff (r : Ranking) :
    r.rge .CaseSensitiveEqual = true ↔ r = .CaseSensitiveEqual := by
  cases r <;> simp [Ranking.rge, Ranking.rcmp, ncmp, Ranking.tierValue]

/-- C5: in the rank-and-filter step of `match_sorter`, the item at input
position `i` contributes a `RankedItem` exactly when its computed rank is
`>=` its effective threshold (the winning key's threshold when present,
else the global one); a `NoMatch` threshold admits every rank, and a
`CaseSensitiveEqual` threshold admits exactly `CaseSensitiveEqual`. -/
theorem c5_threshold (T : Type) (u : Uni) (ams : T → List Char)
    (items : List T) (value : List Char) (opts : MatchSorterOptions T) :
    (∀ i (h : i < items.length),
      ((rankAndFilter u ams items value opts).any (fun r => r.index == i)) = true ↔
        ((rankOne u ams value opts i items[i]).rank.rge
          (((rankOne u ams value opts i items[i]).keyThreshold).getD
            opts.threshold)) = true) ∧
    (∀ r : Ranking, r.rge .NoMatch = true) ∧
    (∀ r : Ranking, r.rge .CaseSensitiveEqual = true ↔ r = .CaseSensitiveEqual) :=
  ⟨fun i h => raf_mem u ams items value opts i h, rge_noMatch, rge_cse_iff⟩

def optsDefault : MatchSorterOptions (List Char) :=
  { keys := [], threshold := .Matches (.val 1), keepDiacritics := false,
    baseSort := none, sorter := none }

/-- Witness for C5: the single item `"a"` with query `"a"` passes the
default threshold and appears in the filtered list. -/
theorem c5_witness :
    ((rankAndFilter uniTriv (fun x => x) [['a']] ['a'] optsDefault).any
      (fun r => r.index == 0)) = true ↔
      ((rankOne uniTriv (fun x => x) ['a'] optsDefault 0 ['a']).rank.rge
        (((rankOne uniTriv (fun x => x) ['a'] optsDefault 0 ['a']).keyThreshold).getD
          optsDefault.threshold)) = true :=
  (c5_threshold (List Char) uniTriv (fun x => x) [['a']] ['a'] optsDefault).1 0
    (by decide)

/-- C10: with no keys, every `RankedItem` that `match_sorter` constructs
has `key_index` 0 and no per-key threshold, so the effective threshold of
every item is the global one, and on such items the three-level sort
comparator degenerates to rank descending followed directly by the
tiebreaker. -/
theorem c10_no_keys_mode (T : Type) (u : Uni) (ams : T → List Char)
    (items : List T) (value : List Char) (opts : MatchSorterOptions T)
    (hk : opts.keys = []) :
    (∀ r ∈ rankAndFilter u ams items value opts,
      r.keyIndex = 0 ∧ r.keyThreshold = none) ∧
    (∀ i (h : i < items.length),
      ((rankAndFilter u ams items value opts).any (fun r => r.index == i)) = true ↔
        ((getMatchRanking u (ams items[i]) value opts.keepDiacritics).rge
          opts.threshold) = true) ∧
    (∀ (a b : RankedItem T) (f : RankedItem T → RankedItem T → Ordering),
      a.keyIndex = 0 → b.keyIndex = 0 →
      sortRankedValues a b f =
        ((Ranking.rcmp b.rank a.rank).getD .eq).then (f a b)) := by
  refine ⟨?_, ?_, ?_⟩
  · intro r hr
    rw [rankAndFilter, List.mem_filterMap] at hr
    obtain ⟨p, _, hstep⟩ := hr
    obtain ⟨a, b⟩ := p
    by_cases hc : ((rankOne u ams value opts a b).rank.rge
        (((rankOne u ams value opts a b).keyThreshold).getD opts.threshold)) = true
    · rw [if_pos hc] at hstep
      have hre : r = rankOne u ams value opts a b := (Option.some.inj hstep).symm
      rw [hre, rankOne_no_keys u ams value opts a b hk]
      exact ⟨rfl, rfl⟩
    · rw [if_neg hc] at hstep
      cases hstep
  · intro i h
    rw [raf_mem u ams items value opts i h,
      rankOne_no_keys u ams value opts i items[i] hk]
    exact Iff.rfl
  · intro a b f ha hb
    have hn : ncmp a.keyIndex b.keyIndex = .eq := by
      rw [ha, hb]
      rfl
    simp only [sortRankedValues, hn]
    cases hcmp : (Ranking.rcmp b.rank a.rank).getD .eq <;> rfl

/-- Witness for C10: in no-keys mode the single matching item is admitted
by the global threshold. -/
theorem c10_witness :
    ((rankAndFilter uniTriv (fun x => x) [['a']] ['a'] optsDefault).any
      (fun r => r.index == 0)) = true ↔
      ((getMatchRanking uniTriv ['a'] ['a'] optsDefault.keepDiacritics).rge
        optsDefault.threshold) = true :=
  (c10_no_keys_mode (List Char) uniTriv (fun x => x) [['a']] ['a'] optsDefault
    rfl).2.1 0 (by decide)

lemma raf_pairwise_index {T : Type} (u : Uni) (ams : T → List Char)
    (items : List T) (value : List Char) (opts : MatchSorterOptions T) :
    (rankAndFilter u ams items value opts).Pairwise
      (fun r s => r.index < s.index) := by
  have henum : items.enum.Pairwise (fun p q : Nat × T => p.1 < q.1) := by
    have hr := List.pairwise_lt_range items.length
    rw [← List.enum_map_fst items] at hr
    exact (List.pairwise_map).mp hr
  refine List.Pairwise.filterMap _ ?_ henum
  intro p q hpq r hr s hs
  obtain ⟨a, b⟩ := p
  obtain ⟨c, d⟩ := q
  simp only [Option.mem_def] at hr hs
  by_cases hc1 : ((rankOne u ams value opts a b).rank.rge
      (((rankOne u ams value opts a b).keyThreshold).getD opts.threshold)) = true
  · rw [if_pos hc1] at hr
    by_cases hc2 : ((rankOne u ams value opts c d).rank.rge
        (((rankOne u ams value opts c d).keyThreshold).getD opts.threshold)) = true
    · rw [if_pos hc2] at hs
      have h1 : r = rankOne u ams value opts a b := (Option.some.inj hr).symm
      have h2 : s = rankOne u ams value opts c d := (Option.some.inj hs).symm
      rw [h1, h2, rankOne_index, rankOne_index]
      exact hpq
    · rw [if_neg hc2] at hs
      cases hs
  · rw [if_neg hc1] at hr
    cases hr

lemma raf_indices_nodup {T : Type} (u : Uni) (ams : T → List Char)
    (items : List T) (value : List Char) (opts : MatchSorterOptions T) :
    ((rankAndFilter u ams items value opts).map (fun r => r.index)).Nodup := by
  have hp := raf_pairwise_index u ams items value opts
  have hm : ((rankAndFilter u ams items value opts).map
      (fun r => r.index)).Pairwise (· < ·) :=
    List.Pairwise.map _ (fun a b h => h) hp
  exact hm.imp Nat.ne_of_lt

/-- C8 counterexample: a `sorter` override returning the filtered vector
twice makes `match_sorter` output the single input item twice (both
entries carrying input index 0), so with an arbitrary sorter override the
"no item appears more than once" guarantee fails — the override's result
is used verbatim. -/
theorem c8_counterexample :
    matchSorter uniTriv (fun x => x) [['a']] ['a']
      { keys := [], threshold := .NoMatch, keepDiacritics := false,
        baseSort := none,
        sorter := some (fun l => l ++ l) } = [['a'], ['a']] ∧
    (matchSorterRanked uniTriv (fun x => x) [['a']] ['a']
      { keys := [], threshold := .NoMatch, keepDiacritics := false,
        baseSort := none,
        sorter := some (fun l => l ++ l) }).map (fun r => r.index) = [0, 0] := by
  refine ⟨by decide, by decide⟩

/-- C8 amended: without a `sorter` override, the sorted list is a
permutation of the threshold-filtered list, its input indices are
pairwise distinct (no duplicated or invented items), and the output is
exactly that list's items; with an override, the override's return value
is used verbatim, so the guarantee is the override's responsibility. -/
theorem c8_no_sorter (T : Type) (u : Uni) (ams : T → List Char)
    (items : List T) (value : List Char) (opts : MatchSorterOptions T)
    (hs : opts.sorter = none) :
    List.Perm (matchSorterRanked u ams items value opts)
      (rankAndFilter u ams items value opts) ∧
    ((matchSorterRanked u ams items value opts).map (fun r => r.index)).Nodup ∧
    matchSorter u ams items value opts =
      (matchSorterRanked u ams items value opts).map (fun r => r.item) := by
  have hperm : List.Perm (matchSorterRanked u ams items value opts)
      (rankAndFilter u ams items value opts) := by
    simp only [matchSorterRanked, hs]
    exact List.mergeSort_perm _ _
  refine ⟨hperm, ?_, rfl⟩
  have hnd := raf_indices_nodup u ams items value opts
  exact ((hperm.map (fun r => r.index)).symm.nodup hnd)

/-- Witness for C8 (amended): the default options have no sorter
override; the single passing item appears exactly once. -/
theorem c8_witness :
    List.Perm (matchSorterRanked uniTriv (fun x => x) [['a']] ['a'] optsDefault)
      (rankAndFilter uniTriv (fun x => x) [['a']] ['a'] optsDefault) ∧
    ((matchSorterRanked uniTriv (fun x => x) [['a']] ['a'] optsDefault).map
      (fun r => r.index)).Nodup ∧
    matchSorter uniTriv (fun x => x) [['a']] ['a'] optsDefault =
      (matchSorterRanked uniTriv (fun x => x) [['a']] ['a'] optsDefault).map
        (fun r => r.item) :=
  c8_no_sorter (List Char) uniTriv (fun x => x) [['a']] ['a'] optsDefault rfl

/-- A ranking whose sub-score (if any) is not NaN. -/
def nanFreeR : Ranking → Bool
  | .Matches .nan => false
  | _ => true

lemma ncmp_lt_iff (a b : Nat) : ncmp a b = .lt ↔ a < b := by
  unfold ncmp
  split
  · simp_all
  · split <;> simp_all <;> omega

lemma ncmp_gt_iff (a b : Nat) : ncmp a b = .gt ↔ b < a := by
  unfold ncmp
  split
  · constructor
    · intro h; cases h
    · intro h; omega
  · split
    · constructor
      · intro h; cases h
      · intro h; omega
    · constructor
      · intro _; omega
      · intro _; rfl

lemma qcmp_gt_iff (a b : ℚ) : qcmp a b = .gt ↔ b < a := by
  unfold qcmp
  split
  · rename_i h
    constructor
    · intro hc; cases hc
    · intro hc; exact absurd (lt_trans h hc) (lt_irrefl a)
  · split
    · rename_i _ h
      subst h
      constructor
      · intro hc; cases hc
      · intro hc; exact absurd hc (lt_irrefl a)
    · rename_i h1 h2
      constructor
      · intro _; rcases lt_trichotomy a b with h | h | h
        · exact absurd h h1
        · exact absurd h h2
        · exact h
      · intro _; rfl

/-- The key along which `Ranking::partial_cmp` is a linear order on
NaN-free rankings: tier value first, then the sub-score (0 for fixed
tiers, whose tier values are never 1). -/
def rkey (r : Ranking) : Nat × ℚ :=
  (r.tierValue, match r with
                | .Matches (.val q) => q
                | _ => 0)

/-- Lexicographic comparison along `rkey`. -/
def pairCmp (x y : Nat × ℚ) : Ordering :=
  match ncmp x.1 y.1 with
  | .eq => qcmp x.2 y.2
  | o => o

lemma pairCmp_zero (t t' : Nat) : pairCmp (t, 0) (t', 0) = ncmp t t' := by
  unfold pairCmp
  cases hn : ncmp t t' with
  | lt => rfl
  | gt => rfl
  | eq =>
      have := (ncmp_eq_iff t t').mp hn
      subst this
      simp [qcmp]

lemma rcmp_eq_pairCmp (a b : Ranking) (ha : nanFreeR a = true)
    (hb : nanFreeR b = true) :
    Ranking.rcmp a b = some (pairCmp (rkey a) (rkey b)) := by
  cases a <;> cases b <;>
    first
    | rfl
    | (rename_i s
       cases s with
       | val q => rfl
       | nan => first | exact Bool.noConfusion ha | exact Bool.noConfusion hb)
    | (rename_i sa sb
       cases sa with
       | nan => exact Bool.noConfusion ha
       | val x =>
           cases sb with
           | nan => exact Bool.noConfusion hb
           | val y => rfl)

lemma pairCmp_gt_iff (x y : Nat × ℚ) :
    pairCmp x y = .gt ↔ (y.1 < x.1 ∨ (x.1 = y.1 ∧ y.2 < x.2)) := by
  unfold pairCmp
  cases hn : ncmp x.1 y.1 with
  | lt =>
      have h := (ncmp_lt_iff _ _).mp hn
      constructor
      · intro hc; cases hc
      · intro hc; rcases hc with hc | ⟨hc, _⟩ <;> omega
  | eq =>
      have he := (ncmp_eq_iff _ _).mp hn
      constructor
      · intro hc; exact Or.inr ⟨he, (qcmp_gt_iff _ _).mp hc⟩
      · intro hc
        rcases hc with hc | ⟨_, hc⟩
        · omega
        · exact (qcmp_gt_iff _ _).mpr hc
  | gt =>
      have h := (ncmp_gt_iff _ _).mp hn
      constructor
      · intro _; exact Or.inl h
      · intro _; rfl

lemma rgt_iff_key (a b : Ranking) (ha : nanFreeR a = true)
    (hb : nanFreeR b = true) :
    a.rgt b = true ↔
      ((rkey b).1 < (rkey a).1 ∨
        ((rkey a).1 = (rkey b).1 ∧ (rkey b).2 < (rkey a).2)) := by
  rw [rgt_eq_true_iff, rcmp_eq_pairCmp a b ha hb, Option.some_inj]
  exact pairCmp_gt_iff _ _

lemma rgt_irrefl (a : Ranking) : a.rgt a = false := by
  cases a with
  | Matches s =>
      cases s with
      | val q => simp [Ranking.rgt, Ranking.rcmp, F64.fcmp, qcmp]
      | nan => rfl
  | CaseSensitiveEqual => rfl
  | Equal => rfl
  | StartsWith => rfl
  | WordStartsWith => rfl
  | Contains => rfl
  | Acronym => rfl
  | NoMatch => rfl

lemma rgt_asymm (a b : Ranking) (ha : nanFreeR a = true)
    (hb : nanFreeR b = true) (h : a.rgt b = true) : b.rgt a = false := by
  rw [rgt_iff_key a b ha hb] at h
  cases hba : Ranking.rgt b a with
  | false => rfl
  | true =>
      rw [rgt_iff_key b a hb ha] at hba
      rcases h with h | ⟨h1, h2⟩ <;> rcases hba with hba | ⟨hba1, hba2⟩
      · omega
      · omega
      · omega
      · exact absurd (lt_trans h2 hba2) (lt_irrefl _)

lemma rgt_trans (a b c : Ranking) (ha : nanFreeR a = true)
    (hb : nanFreeR b = true) (hc : nanFreeR c = true)
    (hab : a.rgt b = true) (hbc : b.rgt c = true) : a.rgt c = true := by
  rw [rgt_iff_key a b ha hb] at hab
  rw [rgt_iff_key b c hb hc] at hbc
  rw [rgt_iff_key a c ha hc]
  rcases hab with h1 | ⟨h1, h2⟩ <;> rcases hbc with h3 | ⟨h3, h4⟩
  · exact Or.inl (lt_trans h3 h1)
  · exact Or.inl (by omega)
  · exact Or.inl (by omega)
  · exact Or.inr ⟨by omega, lt_trans h4 h2⟩

lemma rgt_of_not_gt_of_gt (a b c : Ranking) (ha : nanFreeR a = true)
    (hb : nanFreeR b = true) (hc : nanFreeR c = true)
    (hab : a.rgt b = false) (hcb : c.rgt b = true) : c.rgt a = true := by
  rw [rgt_iff_key c b hc hb] at hcb
  rw [rgt_iff_key c a hc ha]
  have hab2 : ¬ ((rkey b).1 < (rkey a).1 ∨
      ((rkey a).1 = (rkey b).1 ∧ (rkey b).2 < (rkey a).2)) := by
    intro hx
    rw [← rgt_iff_key a b ha hb] at hx
    rw [hab] at hx
    cases hx
  push_neg at hab2
  obtain ⟨hle, himp⟩ := hab2
  rcases hcb with h1 | ⟨h1, h2⟩
  · exact Or.inl (by omega)
  · rcases Nat.lt_or_ge (rkey a).1 (rkey c).1 with h | h
    · exact Or.inl h
    · have hae : (rkey a).1 = (rkey b).1 := by omega
      exact Or.inr ⟨by omega, lt_of_le_of_lt (himp hae) h2⟩

lemma tier_zero (r : Ranking) : r.tierValue = 0 → r = .NoMatch := by
  cases r <;> simp [Ranking.tierValue]

lemma eq_noMatch_of_not_rgt (r : Ranking) (hr : nanFreeR r = true)
    (h : r.rgt .NoMatch = false) : r = .NoMatch := by
  have hx : ¬ ((rkey Ranking.NoMatch).1 < (rkey r).1 ∨
      ((rkey r).1 = (rkey Ranking.NoMatch).1 ∧
        (rkey Ranking.NoMatch).2 < (rkey r).2)) := by
    intro hc
    rw [← rgt_iff_key r .NoMatch hr rfl] at hc
    rw [h] at hc
    cases hc
  push_neg at hx
  obtain ⟨h1, _⟩ := hx
  have h0 : (rkey Ranking.NoMatch).1 = 0 := rfl
  have h2 : (rkey r).1 = r.tierValue := rfl
  exact tier_zero r (by omega)

lemma closeness_nanFree (c q : List Char) :
    nanFreeR (getClosenessRanking c q) = true := by
  cases hg : greedyList c 0 q with
  | none =>
      have h : getClosenessRanking c q = .NoMatch := by
        rw [getClosenessRanking_eq, hg]
      rw [h]
      rfl
  | some ps =>
      have h : getClosenessRanking c q = mkScore (ps.getLastD 0 - ps.headD 0) := by
        rw [getClosenessRanking_eq, hg]
      rw [h, mkScore]
      split <;> rfl

lemma getMatchRanking_nanFree (u : Uni) (t q : List Char) (keep : Bool) :
    nanFreeR (getMatchRanking u t q keep) = true := by
  simp only [getMatchRanking, getMatchRankingPrepared]
  split
  · rfl
  · split
    · rfl
    · split
      · split <;> rfl
      · split
        · split
          · split <;> rfl
          · rw [wordScanAux_eq]
            split <;> rfl
        · split
          · rfl
          · split
            · rfl
            · exact closeness_nanFree _ _

lemma adjustRank_nanFree (u : Uni) (keep : Bool) (query : List Char)
    (mn mx : Ranking) (v : List Char)
    (hmn : nanFreeR mn = true) (hmx : nanFreeR mx = true) :
    nanFreeR (adjustRank u keep query mn mx v) = true := by
  simp only [adjustRank]
  split
  · split
    · exact hmn
    · exact hmx
  · split
    · exact hmn
    · exact getMatchRanking_nanFree u v query keep

/-- A flattened (value, per-key threshold, per-key min, per-key max)
entry, following the spec's description of the flattened key-values
sequence. -/
structure FlatEntry where
  value : List Char
  thr : Option Ranking
  mn : Ranking
  mx : Ranking
deriving DecidableEq

/-- Specification-side flattening of all keys' extracted values into one
ordered sequence, key declaration order first, per-key value order
second. -/
def flatEntries {T : Type} (item : T) : List (Key T) → List FlatEntry
  | [] => []
  | k :: ks =>
      ((k.extract item).map
        (fun v => ⟨v, k.threshold, k.minRanking, k.maxRanking⟩)) ++
      flatEntries item ks

/-- The resulting (clamped, then promoted) rank of a flattened entry. -/
def entryRank (u : Uni) (keep : Bool) (query : List Char) (e : FlatEntry) :
    Ranking :=
  adjustRank u keep query e.mn e.mx e.value

/-- The `RankingInfo` a flattened entry produces when it wins at flattened
index `i`. -/
def entryInfo (u : Uni) (keep : Bool) (query : List Char) (e : FlatEntry)
    (i : Nat) : RankingInfo :=
  { rank := entryRank u keep query e, rankedValue := e.value,
    keyIndex := i, keyThreshold := e.thr }

/-- The default `RankingInfo` that `get_highest_ranking` starts from. -/
def defaultInfo : RankingInfo :=
  { rank := .NoMatch, rankedValue := [], keyIndex := 0, keyThreshold := none }

/-- The `get_highest_ranking` loop re-expressed over flattened entries. -/
def ghrEntries (u : Uni) (keep : Bool) (query : List Char) :
    List FlatEntry → RankingInfo × Nat → RankingInfo × Nat
  | [], st => st
  | e :: es, (best, ki) =>
      let rank := entryRank u keep query e
      let best := if rank.rgt best.rank then entryInfo u keep query e ki else best
      ghrEntries u keep query es (best, ki + 1)

lemma ghrVals_eq_entries (u : Uni) (keep : Bool) (query : List Char)
    (thr : Option Ranking) (mn mx : Ranking) :
    ∀ (vs : List (List Char)) (st : RankingInfo × Nat),
    ghrVals u keep query thr mn mx vs st =
      ghrEntries u keep query (vs.map (fun v => ⟨v, thr, mn, mx⟩)) st := by
  intro vs
  induction vs with
  | nil => intro st; rfl
  | cons v vs ih =>
      intro st
      obtain ⟨best, ki⟩ := st
      simp only [ghrVals, List.map_cons, ghrEntries, entryRank, entryInfo]
      rw [ih]

lemma ghrEntries_append (u : Uni) (keep : Bool) (query : List Char) :
    ∀ (l1 l2 : List FlatEntry) (st : RankingInfo × Nat),
    ghrEntries u keep query (l1 ++ l2) st =
      ghrEntries u keep query l2 (ghrEntries u keep query l1 st) := by
  intro l1
  induction l1 with
  | nil => intro l2 st; rfl
  | cons e l1 ih =>
      intro l2 st
      obtain ⟨best, ki⟩ := st
      simp only [List.cons_append, ghrEntries, List.append_eq]
      rw [ih]

lemma getHighestRanking_eq_entries {T : Type} (u : Uni) (item : T)
    (query : List Char) (keep : Bool) (keys : List (Key T)) :
    getHighestRanking u item keys query keep =
      (ghrEntries u keep query (flatEntries item keys) (defaultInfo, 0)).1 := by
  suffices h : ∀ (ks : List (Key T)) (st : RankingInfo × Nat),
      ks.foldl (fun st k =>
        ghrVals u keep query k.threshold k.minRanking k.maxRanking
          (k.extract item) st) st =
        ghrEntries u keep query (flatEntries item ks) st by
    rw [getHighestRanking, h]
    rfl
  intro ks
  induction ks with
  | nil => intro st; rfl
  | cons k ks ih =>
      intro st
      simp only [List.foldl_cons, flatEntries, ghrEntries_append]
      rw [ih, ghrVals_eq_entries]

lemma flatEntries_nanFree {T : Type} (u : Uni) (keep : Bool)
    (query : List Char) (item : T) (keys : List (Key T))
    (hkeys : ∀ k ∈ keys,
      nanFreeR k.minRanking = true ∧ nanFreeR k.maxRanking = true) :
    ∀ e ∈ flatEntries item keys,
      nanFreeR (entryRank u keep query e) = true := by
  induction keys with
  | nil => intro e he; cases he
  | cons k ks ih =>
      intro e he
      simp only [flatEntries, List.mem_append, List.mem_map] at he
      rcases he with ⟨v, _, rfl⟩ | he
      · have hk := hkeys k (List.mem_cons_self k ks)
        exact adjustRank_nanFree u keep query k.minRanking k.maxRanking v hk.1 hk.2
      · exact ih (fun k' hk' => hkeys k' (List.mem_cons_of_mem k hk')) e he

lemma ghrEntries_spec (u : Uni) (keep : Bool) (query : List Char) :
    ∀ (es : List FlatEntry) (best : RankingInfo) (n : Nat),
    (∀ e ∈ es, nanFreeR (entryRank u keep query e) = true) →
    nanFreeR best.rank = true →
    (((ghrEntries u keep query es (best, n)).1 = best ∧
       ∀ e ∈ es, Ranking.rgt (entryRank u keep query e) best.rank = false) ∨
     (∃ i, ∃ h : i < es.length,
       (ghrEntries u keep query es (best, n)).1 =
         entryInfo u keep query (es.get ⟨i, h⟩) (n + i) ∧
       Ranking.rgt (entryRank u keep query (es.get ⟨i, h⟩)) best.rank = true ∧
       (∀ j, ∀ hj : j < es.length,
         Ranking.rgt (entryRank u keep query (es.get ⟨j, hj⟩))
           (entryRank u keep query (es.get ⟨i, h⟩)) = false) ∧
       (∀ j, ∀ hj : j < es.length, j < i →
         Ranking.rgt (entryRank u keep query (es.get ⟨i, h⟩))
           (entryRank u keep query (es.get ⟨j, hj⟩)) = true))) := by
  intro es
  induction es with
  | nil =>
      intro best n _ _
      left
      exact ⟨rfl, fun e he => absurd he (List.not_mem_nil e)⟩
  | cons e es ih =>
      intro best n hall hbf
      have hre : nanFreeR (entryRank u keep query e) = true :=
        hall e (List.mem_cons_self e es)
      have hall' : ∀ e' ∈ es, nanFreeR (entryRank u keep query e') = true :=
        fun e' he' => hall e' (List.mem_cons_of_mem e he')
      by_cases hge : (entryRank u keep query e).rgt best.rank = true
      · have hstate : ghrEntries u keep query (e :: es) (best, n) =
            ghrEntries u keep query es (entryInfo u keep query e n, n + 1) := by
          simp only [ghrEntries]
          rw [if_pos hge]
        rcases ih (entryInfo u keep query e n) (n + 1) hall' hre with
          ⟨heq, hnone⟩ | ⟨i, hi, heq, hgt, hmax, hfirst⟩
        · right
          refine ⟨0, Nat.succ_pos _, ?_, hge, ?_, ?_⟩
          · rw [hstate, heq]
            rfl
          · intro j hj
            cases j with
            | zero => exact rgt_irrefl _
            | succ j' =>
                exact hnone (es.get ⟨j', Nat.lt_of_succ_lt_succ hj⟩)
                  (List.get_mem es _ _)
          · intro j _ hj0
            exact absurd hj0 (Nat.not_lt_zero j)
        · right
          refine ⟨i + 1, Nat.succ_lt_succ hi, ?_, ?_, ?_, ?_⟩
          · rw [hstate, heq]
            have hn : n + 1 + i = n + (i + 1) := by omega
            rw [hn]
            rfl
          · exact rgt_trans _ _ _ (hall' _ (List.get_mem es _ _)) hre hbf hgt hge
          · intro j hj
            cases j with
            | zero => exact rgt_asymm _ _ (hall' _ (List.get_mem es _ _)) hre hgt
            | succ j' => exact hmax j' (Nat.lt_of_succ_lt_succ hj)
          · intro j hj hjlt
            cases j with
            | zero => exact hgt
            | succ j' =>
                exact hfirst j' (Nat.lt_of_succ_lt_succ hj)
                  (Nat.lt_of_succ_lt_succ hjlt)
      · have hgef : (entryRank u keep query e).rgt best.rank = false := by
          simpa using hge
        have hstate : ghrEntries u keep query (e :: es) (best, n) =
            ghrEntries u keep query es (best, n + 1) := by
          simp only [ghrEntries]
          rw [if_neg hge]
        rcases ih best (n + 1) hall' hbf with
          ⟨heq, hnone⟩ | ⟨i, hi, heq, hgt, hmax, hfirst⟩
        · left
          refine ⟨by rw [hstate, heq], ?_⟩
          intro e' he'
          rcases List.mem_cons.mp he' with rfl | he'
          · exact hgef
          · exact hnone e' he'
        · right
          refine ⟨i + 1, Nat.succ_lt_succ hi, ?_, hgt, ?_, ?_⟩
          · rw [hstate, heq]
            have hn : n + 1 + i = n + (i + 1) := by omega
            rw [hn]
            rfl
          · intro j hj
            cases j with
            | zero =>
                cases hb : (entryRank u keep query e).rgt
                    (entryRank u keep query (es.get ⟨i, hi⟩)) with
                | false => exact hb
                | true =>
                    have htr := rgt_trans _ _ _ hre
                      (hall' _ (List.get_mem es _ _)) hbf hb hgt
                    rw [htr] at hgef
                    cases hgef
            | succ j' => exact hmax j' (Nat.lt_of_succ_lt_succ hj)
          · intro j hj hjlt
            cases j with
            | zero =>
                exact rgt_of_not_gt_of_gt _ _ _ hre hbf
                  (hall' _ (List.get_mem es _ _)) hgef hgt
            | succ j' =>
                exact hfirst j' (Nat.lt_of_succ_lt_succ hj)
                  (Nat.lt_of_succ_lt_succ hjlt)

/-- C4 amended: with all per-key min/max rankings NaN-free, the source's
clamp-then-promote adjustment is as claimed, and `get_highest_ranking`
returns either the default `RankingInfo` (rank `NoMatch`, empty value,
key index 0, no threshold) when every flattened value's resulting rank is
`NoMatch`, or the `RankingInfo` of the first flattened value attaining
the maximal resulting rank (no value strictly exceeds it and it strictly
exceeds every earlier value). -/
theorem c4_amended (T : Type) (u : Uni) (item : T) (keys : List (Key T))
    (query : List Char) (keep : Bool)
    (hkeys : ∀ k ∈ keys,
      nanFreeR k.minRanking = true ∧ nanFreeR k.maxRanking = true) :
    (getHighestRanking u item keys query keep = defaultInfo ∧
      ∀ e ∈ flatEntries item keys, entryRank u keep query e = .NoMatch) ∨
    (∃ i, ∃ h : i < (flatEntries item keys).length,
      getHighestRanking u item keys query keep =
        entryInfo u keep query ((flatEntries item keys).get ⟨i, h⟩) i ∧
      entryRank u keep query ((flatEntries item keys).get ⟨i, h⟩) ≠ .NoMatch ∧
      (∀ j, ∀ hj : j < (flatEntries item keys).length,
        Ranking.rgt (entryRank u keep query ((flatEntries item keys).get ⟨j, hj⟩))
          (entryRank u keep query ((flatEntries item keys).get ⟨i, h⟩)) = false) ∧
      (∀ j, ∀ hj : j < (flatEntries item keys).length, j < i →
        Ranking.rgt (entryRank u keep query ((flatEntries item keys).get ⟨i, h⟩))
          (entryRank u keep query ((flatEntries item keys).get ⟨j, hj⟩)) = true)) := by
  have hnf := flatEntries_nanFree u keep query item keys hkeys
  have hdef : nanFreeR defaultInfo.rank = true := rfl
  have hspec := ghrEntries_spec u keep query (flatEntries item keys)
    defaultInfo 0 hnf hdef
  rw [getHighestRanking_eq_entries]
  rcases hspec with ⟨heq, hnone⟩ | ⟨i, hi, heq, hgt, hmax, hfirst⟩
  · left
    exact ⟨heq, fun e he => eq_noMatch_of_not_rgt _ (hnf e he) (hnone e he)⟩
  · right
    refine ⟨i, hi, ?_, ?_, hmax, hfirst⟩
    · rw [heq]
      simp
    · intro hcon
      have hdr : defaultInfo.rank = Ranking.NoMatch := rfl
      rw [hcon, hdr, rgt_irrefl] at hgt
      cases hgt

def kAbc : Key Unit :=
  { extract := fun _ => [['a', 'b', 'c']], threshold := some .Contains,
    minRanking := .NoMatch, maxRanking := .CaseSensitiveEqual }

/-- C4 counterexample: when the only flattened value ranks `NoMatch`,
`get_highest_ranking` returns the default `RankingInfo` — empty ranked
value, no key threshold — not the first flattened value attaining the
maximal (NoMatch) resulting rank, whose `RankingInfo` would carry the
value `"abc"` and the key's threshold. -/
theorem c4_counterexample :
    getHighestRanking uniTriv () [kAbc] ['z', 'z', 'z'] false = defaultInfo ∧
    flatEntries () [kAbc] =
      [⟨['a', 'b', 'c'], some .Contains, .NoMatch, .CaseSensitiveEqual⟩] ∧
    entryRank uniTriv false ['z', 'z', 'z']
      ⟨['a', 'b', 'c'], some .Contains, .NoMatch, .CaseSensitiveEqual⟩ =
      .NoMatch ∧
    defaultInfo ≠ entryInfo uniTriv false ['z', 'z', 'z']
      ⟨['a', 'b', 'c'], some .Contains, .NoMatch, .CaseSensitiveEqual⟩ 0 := by
  refine ⟨by decide, by decide, by decide, by decide⟩

def kB : Key Unit :=
  { extract := fun _ => [['b'], ['a', 'b']], threshold := none,
    minRanking := .NoMatch, maxRanking := .CaseSensitiveEqual }

/-- Witness for C4 (amended): a key extracting `["b", "ab"]` against the
query `"ab"` — the second flattened value wins with
`CaseSensitiveEqual`. -/
theorem c4_witness :
    (getHighestRanking uniTriv () [kB] ['a', 'b'] false = defaultInfo ∧
      ∀ e ∈ flatEntries () [kB],
        entryRank uniTriv false ['a', 'b'] e = .NoMatch) ∨
    (∃ i, ∃ h : i < (flatEntries () [kB]).length,
      getHighestRanking uniTriv () [kB] ['a', 'b'] false =
        entryInfo uniTriv false ['a', 'b'] ((flatEntries () [kB]).get ⟨i, h⟩) i ∧
      entryRank uniTriv false ['a', 'b'] ((flatEntries () [kB]).get ⟨i, h⟩) ≠
        .NoMatch ∧
      (∀ j, ∀ hj : j < (flatEntries () [kB]).length,
        Ranking.rgt
          (entryRank uniTriv false ['a', 'b'] ((flatEntries () [kB]).get ⟨j, hj⟩))
          (entryRank uniTriv false ['a', 'b'] ((flatEntries () [kB]).get ⟨i, h⟩)) =
          false) ∧
      (∀ j, ∀ hj : j < (flatEntries () [kB]).length, j < i →
        Ranking.rgt
          (entryRank uniTriv false ['a', 'b'] ((flatEntries () [kB]).get ⟨i, h⟩))
          (entryRank uniTriv false ['a', 'b'] ((flatEntries () [kB]).get ⟨j, hj⟩)) =
          true)) :=
  c4_amended Unit uniTriv () [kB] ['a', 'b'] false
    (by
      intro k hk
      rw [List.mem_singleton] at hk
      subst hk
      exact ⟨rfl, rfl⟩)

end Msort
